import Mathlib

/-!
Shallow embedding of the learning-analytics core of the Classify repository
(`src/app.py`, `src/models/learning.py`, `src/models/course.py`,
`src/models/concept.py`), together with theorems settling the frozen claims
about it.

Conventions of the embedding:
* Python floats are modelled as rationals (`ℚ`); Python ints as `ℤ` (counts
  that are manifestly sizes use `ℕ`).
* `datetime` values are modelled as rationals measuring days since an
  arbitrary epoch, so `now + timedelta(days = interval)` becomes
  `now + interval`.
* A SQLAlchemy table is modelled as a Lean list of rows in insertion order;
  a `filter_by` query is `List.filter`; an `order_by(col.desc()).first()`
  query is a stable sort followed by taking the head.
* Database columns that no verified operation reads or writes (ids that the
  caller has already used to select the rows, timestamps such as
  `created_at`/`updated_at`, free-text columns) are omitted from the row
  structures.
-/

/-- Truncation toward zero, the behaviour of Python's `int(...)` applied to a
float. On nonnegative arguments it coincides with `Int.floor`. -/
def pyInt (q : ℚ) : ℤ :=
  if q < 0 then -⌊-q⌋ else ⌊q⌋

/-! ## models/learning.py: FlashcardReview and the SM-2 scheduler -/

/-- Row of the `flashcard_reviews` table (`FlashcardReview` in
`src/models/learning.py`), restricted to the columns that
`calculate_next_review` reads or writes. -/
structure FlashcardReview where
  ease_factor : ℚ
  interval : ℤ
  repetitions : ℤ
  quality : ℤ
  next_review_date : ℚ
  deriving DecidableEq, Repr

/-- Embedding of `FlashcardReview.calculate_next_review`
(`src/models/learning.py` lines 132-157). `now` stands for
`datetime.utcnow()`. The Python statements mutate `self` in order; here each
step produces the next state. -/
def FlashcardReview.calculate_next_review (now : ℚ) (s : FlashcardReview) :
    FlashcardReview :=
  let s1 :=
    if s.quality < 3 then
      { s with repetitions := 0, interval := 1 }
    else
      let s0 :=
        if s.repetitions = 0 then { s with interval := 1 }
        else if s.repetitions = 1 then { s with interval := 6 }
        else { s with interval := pyInt ((s.interval : ℚ) * s.ease_factor) }
      { s0 with repetitions := s0.repetitions + 1 }
  let ef :=
    s1.ease_factor +
      (1/10 - (5 - (s1.quality : ℚ)) * (8/100 + (5 - (s1.quality : ℚ)) * (2/100)))
  let s2 := { s1 with ease_factor := if ef < 13/10 then 13/10 else ef }
  { s2 with next_review_date := now + (s2.interval : ℚ) }

lemma pyInt_eq_floor_of_nonneg {q : ℚ} (h : 0 ≤ q) : pyInt q = ⌊q⌋ := by
  simp [pyInt, not_lt.mpr h]

lemma if_lt_eq_max (a b : ℚ) : (if b < a then a else b) = max a b := by
  rcases lt_or_le b a with h | h
  · simp [h, max_eq_left h.le]
  · simp [not_lt.mpr h, max_eq_right h]

/-- C1: for a review state satisfying the documented invariants and any
quality in `[0,5]`, `calculate_next_review` performs exactly the SM-2
transition: a failed recall (`quality < 3`) resets `repetitions` to 0 and
`interval` to 1; a successful recall sets `interval` to 1, 6, or
`⌊interval * ease_factor⌋` according to whether `repetitions` was 0, 1, or
more, and then increments `repetitions`; in both cases the ease factor
becomes `max 1.3 (ease_factor + (0.1 - (5 - quality) * (0.08 + (5 - quality) * 0.02)))`
and `next_review_date` becomes `now + interval` (days), with the new
interval. -/
theorem calculate_next_review_spec (now : ℚ) (s : FlashcardReview)
    (hef : 13/10 ≤ s.ease_factor) (hint : 1 ≤ s.interval)
    (hrep : 0 ≤ s.repetitions) (hq0 : 0 ≤ s.quality) (hq5 : s.quality ≤ 5) :
    (s.quality < 3 →
      (s.calculate_next_review now).repetitions = 0 ∧
      (s.calculate_next_review now).interval = 1) ∧
    (3 ≤ s.quality →
      (s.calculate_next_review now).interval =
        (if s.repetitions = 0 then 1 else if s.repetitions = 1 then 6
         else ⌊(s.interval : ℚ) * s.ease_factor⌋) ∧
      (s.calculate_next_review now).repetitions = s.repetitions + 1) ∧
    (s.calculate_next_review now).ease_factor =
      max (13/10)
        (s.ease_factor +
          (1/10 - (5 - (s.quality : ℚ)) * (8/100 + (5 - (s.quality : ℚ)) * (2/100)))) ∧
    (s.calculate_next_review now).next_review_date =
      now + ((s.calculate_next_review now).interval : ℚ) := by
  have hprod : (0 : ℚ) ≤ (s.interval : ℚ) * s.ease_factor := by
    have h1 : (0 : ℚ) ≤ (s.interval : ℚ) := by
      have : (0 : ℤ) ≤ s.interval := le_trans (by norm_num) hint
      exact_mod_cast this
    have h2 : (0 : ℚ) ≤ s.ease_factor := le_trans (by norm_num) hef
    exact mul_nonneg h1 h2
  by_cases hq : s.quality < 3
  · refine ⟨fun _ => ?_, fun h3 => absurd h3 (not_le.mpr hq), ?_, ?_⟩ <;>
      simp [FlashcardReview.calculate_next_review, hq, if_lt_eq_max]
  · have hq3 : 3 ≤ s.quality := not_lt.mp hq
    refine ⟨fun h => absurd h hq, fun _ => ?_, ?_, ?_⟩
    · by_cases h0 : s.repetitions = 0
      · simp [FlashcardReview.calculate_next_review, hq, h0]
      · by_cases h1 : s.repetitions = 1
        · simp [FlashcardReview.calculate_next_review, hq, h0, h1]
        · simp [FlashcardReview.calculate_next_review, hq, h0, h1,
            pyInt_eq_floor_of_nonneg hprod]
    · by_cases h0 : s.repetitions = 0
      · simp [FlashcardReview.calculate_next_review, hq, h0, if_lt_eq_max]
      · by_cases h1 : s.repetitions = 1
        · simp [FlashcardReview.calculate_next_review, hq, h0, h1, if_lt_eq_max]
        · simp [FlashcardReview.calculate_next_review, hq, h0, h1, if_lt_eq_max]
    · by_cases h0 : s.repetitions = 0
      · simp [FlashcardReview.calculate_next_review, hq, h0]
      · by_cases h1 : s.repetitions = 1
        · simp [FlashcardReview.calculate_next_review, hq, h0, h1]
        · simp [FlashcardReview.calculate_next_review, hq, h0, h1]

/-- Witness for `calculate_next_review_spec`: the third successful review of
the spec's scenario 3 (`quality = 5`, `ease_factor = 2.7`, `interval = 6`,
`repetitions = 2`, reviewed at time 100) gets interval
`⌊6 * 2.7⌋ = 16`, repetitions 3, ease factor `2.8`, next review at 116. -/
theorem calculate_next_review_spec_witness :
    ((3 : ℤ) ≤ 5 →
      (FlashcardReview.calculate_next_review 100
        ⟨27/10, 6, 2, 5, 0⟩).interval =
        (if (2 : ℤ) = 0 then 1 else if (2 : ℤ) = 1 then 6
         else ⌊((6 : ℤ) : ℚ) * (27/10 : ℚ)⌋) ∧
      (FlashcardReview.calculate_next_review 100
        ⟨27/10, 6, 2, 5, 0⟩).repetitions = 2 + 1) ∧
    (FlashcardReview.calculate_next_review 100
        ⟨27/10, 6, 2, 5, 0⟩).ease_factor =
      max (13/10)
        ((27/10 : ℚ) +
          (1/10 - (5 - ((5 : ℤ) : ℚ)) * (8/100 + (5 - ((5 : ℤ) : ℚ)) * (2/100)))) := by
  have h := calculate_next_review_spec 100 ⟨27/10, 6, 2, 5, 0⟩
    (by norm_num) (by norm_num) (by norm_num) (by norm_num) (by norm_num)
  exact ⟨h.2.1, h.2.2.1⟩

/-! ## app.py: the running quiz average of `submit_quiz` / `submit_course_quiz` -/

/-- Embedding of the quiz-average update performed by `submit_quiz`
(`src/app.py` lines 1214-1218) and, identically, by `submit_course_quiz`
(lines 1381-1384): `if progress.quiz_avg_score == 0: quiz_avg_score = score
else: quiz_avg_score = (quiz_avg_score + score) / 2`. -/
def updateQuizAvg (avg score : ℚ) : ℚ :=
  if avg = 0 then score else (avg + score) / 2

/-- Stored quiz average after a sequence of graded scores, starting from the
column default `quiz_avg_score = 0.0` and applying the code's update for each
score in order. -/
def codeQuizAvg (scores : List ℚ) : ℚ :=
  scores.foldl updateQuizAvg 0

/-- Modelled from the spec: the recurrence the spec claims for the stored
quiz average — "the first recorded score becomes the baseline; every
subsequent score replaces the average with `(oldAverage + newScore) / 2`". -/
def specQuizAvg (scores : List ℚ) : ℚ :=
  match scores with
  | [] => 0
  | s :: rest => rest.foldl (fun avg t => (avg + t) / 2) s

/-- C2 counterexample: after a first recorded score of 0 and a second score
of 80, the claimed recurrence gives `(0 + 80) / 2 = 40`, but the code treats
the stored average 0 as "no prior score" and sets the average to 80. -/
theorem quiz_avg_recurrence_counterexample :
    codeQuizAvg [0, 80] = 80 ∧ specQuizAvg [0, 80] = 40 ∧
    codeQuizAvg [0, 80] ≠ specQuizAvg [0, 80] := by
  refine ⟨?_, ?_, ?_⟩ <;> norm_num [codeQuizAvg, specQuizAvg, updateQuizAvg]

lemma foldl_updateQuizAvg_eq (rest : List ℚ) :
    ∀ a : ℚ, 0 < a → (∀ t ∈ rest, 0 < t) →
      rest.foldl updateQuizAvg a = rest.foldl (fun avg t => (avg + t) / 2) a := by
  induction rest with
  | nil => intro a _ _; rfl
  | cons t ts ih =>
    intro a ha hts
    have ht : 0 < t := hts t (List.mem_cons_self t ts)
    have hne : a ≠ 0 := ne_of_gt ha
    have hstep : updateQuizAvg a t = (a + t) / 2 := by simp [updateQuizAvg, hne]
    have hmid : 0 < (a + t) / 2 := by positivity
    simp only [List.foldl_cons, hstep]
    exact ih ((a + t) / 2) hmid (fun u hu => hts u (List.mem_cons_of_mem t hu))

/-- C2 amended: the stored quiz average follows the claimed recurrence only
as long as the stored average stays nonzero; the code tests
`quiz_avg_score == 0` to detect "no prior score", so a recorded score of 0
makes the next score a fresh baseline instead of being blended. For
histories of strictly positive scores the recurrence holds exactly, and the
spec's worked example does too: a first score of 80 yields average 80 and a
following 60 yields 70. -/
theorem quiz_avg_recurrence_amended (s : ℚ) (rest : List ℚ)
    (hs : 0 < s) (hrest : ∀ t ∈ rest, 0 < t) :
    codeQuizAvg (s :: rest) = specQuizAvg (s :: rest) ∧
    codeQuizAvg [80] = 80 ∧ codeQuizAvg [80, 60] = 70 := by
  refine ⟨?_, by norm_num [codeQuizAvg, updateQuizAvg],
    by norm_num [codeQuizAvg, updateQuizAvg]⟩
  have h0 : updateQuizAvg 0 s = s := by simp [updateQuizAvg]
  simp only [codeQuizAvg, specQuizAvg, List.foldl_cons, h0]
  exact foldl_updateQuizAvg_eq rest s hs hrest

/-- Witness for `quiz_avg_recurrence_amended` at the spec's worked example:
scores 80 then 60 give stored average 70, matching the recurrence. -/
theorem quiz_avg_recurrence_amended_witness :
    codeQuizAvg [80, 60] = specQuizAvg [80, 60] ∧ codeQuizAvg [80, 60] = 70 := by
  have h := quiz_avg_recurrence_amended 80 [60] (by norm_num)
    (by intro t ht; simp at ht; simp [ht])
  exact ⟨h.1, h.2.2⟩

/-! ## models/learning.py: Progress.update_mastery -/

/-- Row of the `progress` table (`Progress` in `src/models/learning.py`),
restricted to the columns the verified operations read or write. -/
structure Progress where
  viewed : Bool
  quiz_attempts : ℤ
  quiz_avg_score : ℚ
  flashcard_reviews : ℤ
  mastery_level : ℚ
  deriving DecidableEq, Repr

/-- Embedding of `Progress.update_mastery` (`src/models/learning.py` lines
189-205). The Python guard `if self.quiz_avg_score` is float truthiness,
i.e. "nonzero"; `if self.flashcard_reviews > 0` is an explicit comparison;
`min(self.flashcard_reviews * 5, 40)` is integer arithmetic. The
`updated_at` timestamp write is omitted. -/
def Progress.update_mastery (p : Progress) : Progress :=
  let quiz_component : ℚ :=
    if p.quiz_avg_score = 0 then 0 else p.quiz_avg_score * (6/10)
  let flashcard_component : ℚ :=
    if 0 < p.flashcard_reviews then ((min (p.flashcard_reviews * 5) 40 : ℤ) : ℚ)
    else 0
  { p with mastery_level := min (quiz_component + flashcard_component) 100 }

/-- C3: for quiz averages in `[0,100]` and a nonnegative review count,
`update_mastery` sets the mastery level to exactly
`min 100 (quiz_avg_score * 0.6 + min (flashcard_reviews * 5) 40)`, and the
result always lies in `[0,100]`. -/
theorem update_mastery_spec (p : Progress)
    (h0 : 0 ≤ p.quiz_avg_score) (h100 : p.quiz_avg_score ≤ 100)
    (hfr : 0 ≤ p.flashcard_reviews) :
    (p.update_mastery).mastery_level =
      min 100 (p.quiz_avg_score * (6/10) + min ((p.flashcard_reviews : ℚ) * 5) 40) ∧
    0 ≤ (p.update_mastery).mastery_level ∧
    (p.update_mastery).mastery_level ≤ 100 := by
  have hcast : ((min (p.flashcard_reviews * 5) 40 : ℤ) : ℚ) =
      min ((p.flashcard_reviews : ℚ) * 5) 40 := by
    push_cast [Int.cast_min]
    ring_nf
  have hfc : (0 : ℚ) ≤ min ((p.flashcard_reviews : ℚ) * 5) 40 := by
    have h5 : (0 : ℚ) ≤ (p.flashcard_reviews : ℚ) * 5 := by
      have : (0 : ℚ) ≤ (p.flashcard_reviews : ℚ) := by exact_mod_cast hfr
      positivity
    exact le_min h5 (by norm_num)
  have heq : (p.update_mastery).mastery_level =
      min 100 (p.quiz_avg_score * (6/10) + min ((p.flashcard_reviews : ℚ) * 5) 40) := by
    by_cases hq : p.quiz_avg_score = 0
    · rcases lt_or_le 0 p.flashcard_reviews with hf | hf
      · simp [Progress.update_mastery, hq, hf, hcast, min_comm]
      · have hf0 : p.flashcard_reviews = 0 := le_antisymm hf hfr
        simp [Progress.update_mastery, hq, hf0, min_comm]
    · rcases lt_or_le 0 p.flashcard_reviews with hf | hf
      · simp [Progress.update_mastery, hq, hf, hcast, min_comm]
      · have hf0 : p.flashcard_reviews = 0 := le_antisymm hf hfr
        simp [Progress.update_mastery, hq, hf0, min_comm]
  refine ⟨heq, ?_, ?_⟩
  · rw [heq]
    have hqc : (0 : ℚ) ≤ p.quiz_avg_score * (6/10) := by positivity
    exact le_min (by norm_num) (by linarith)
  · rw [heq]; exact min_le_left _ _

/-- Witness for `update_mastery_spec`: a progress row with quiz average 70
and 3 flashcard reviews gets mastery `min 100 (70 * 0.6 + min 15 40) = 57`. -/
theorem update_mastery_spec_witness :
    (Progress.update_mastery ⟨true, 2, 70, 3, 0⟩).mastery_level =
      min 100 ((70 : ℚ) * (6/10) + min (((3 : ℤ) : ℚ) * 5) 40) ∧
    0 ≤ (Progress.update_mastery ⟨true, 2, 70, 3, 0⟩).mastery_level ∧
    (Progress.update_mastery ⟨true, 2, 70, 3, 0⟩).mastery_level ≤ 100 :=
  update_mastery_spec ⟨true, 2, 70, 3, 0⟩ (by norm_num) (by norm_num) (by norm_num)

/-! ## models/learning.py: Flashcard.get_next_review_date / Flashcard.is_due -/

/-- Row of the `flashcard_reviews` table as read by the due-check
(`Flashcard.get_next_review_date` filters `self.reviews` — already the rows
of one flashcard — by `user_id` and reads `next_review_date`). Rows appear
in the list in insertion order, i.e. in the order the reviews happened. -/
structure FlashcardReviewRow where
  user_id : ℤ
  next_review_date : ℚ
  deriving DecidableEq, Repr

/-- Embedding of `Flashcard.get_next_review_date` (`src/models/learning.py`
lines 88-97): filter this card's reviews by user, order by
`next_review_date` descending, take the first; with no review, return `now`
("review immediately if never reviewed"). The descending `order_by` is a
stable sort on the key. -/
def Flashcard.get_next_review_date (now : ℚ) (uid : ℤ)
    (reviews : List FlashcardReviewRow) : ℚ :=
  let rows := List.insertionSort
    (fun a b => b.next_review_date ≤ a.next_review_date)
    (reviews.filter fun r => r.user_id = uid)
  match rows with
  | [] => now
  | r :: _ => r.next_review_date

/-- Embedding of `Flashcard.is_due` (`src/models/learning.py` lines 99-102):
`datetime.utcnow() >= self.get_next_review_date(user_id)`. Both calls to
`utcnow` are modelled by the same instant `now`. -/
def Flashcard.is_due (now : ℚ) (uid : ℤ)
    (reviews : List FlashcardReviewRow) : Bool :=
  Flashcard.get_next_review_date now uid reviews ≤ now

/-- C4 counterexample: user 1 reviewed the card twice; the first review
scheduled the next visit at day 30, the second — the most recent review —
rescheduled it to day 2 (a failed recall resets the interval to 1 day). At
day 5 the claim says the card is due (`5 ≥ 2`, the most recent row's date),
but the code reads the row with the *largest* `next_review_date` and reports
the card not due (`5 < 30`). -/
theorem is_due_counterexample :
    (([⟨1, 30⟩, ⟨1, 2⟩] : List FlashcardReviewRow).filter
        (fun r => r.user_id = 1)).getLast? = some ⟨1, 2⟩ ∧
    ((2 : ℚ) ≤ 5) ∧
    Flashcard.is_due 5 1 [⟨1, 30⟩, ⟨1, 2⟩] = false := by
  refine ⟨by decide, by norm_num, ?_⟩
  decide

lemma sorted_desc_head_max (l : List FlashcardReviewRow) (r0 : FlashcardReviewRow)
    (tl : List FlashcardReviewRow)
    (hsort : List.insertionSort
      (fun a b => b.next_review_date ≤ a.next_review_date) l = r0 :: tl) :
    r0 ∈ l ∧ ∀ r ∈ l, r.next_review_date ≤ r0.next_review_date := by
  have hperm := List.perm_insertionSort
    (fun a b : FlashcardReviewRow => b.next_review_date ≤ a.next_review_date) l
  rw [hsort] at hperm
  have htot : IsTotal FlashcardReviewRow
      (fun a b => b.next_review_date ≤ a.next_review_date) :=
    ⟨fun a b => (le_total b.next_review_date a.next_review_date)⟩
  have htrans : IsTrans FlashcardReviewRow
      (fun a b => b.next_review_date ≤ a.next_review_date) :=
    ⟨fun a b c hab hbc => le_trans hbc hab⟩
  have hsorted := @List.sorted_insertionSort FlashcardReviewRow
    (fun a b => b.next_review_date ≤ a.next_review_date) _ htot htrans l
  rw [hsort] at hsorted
  constructor
  · exact hperm.mem_iff.mp (List.mem_cons_self r0 tl)
  · intro r hr
    rcases List.mem_cons.mp (hperm.mem_iff.mpr hr) with h | h
    · exact le_of_eq (by rw [h])
    · exact List.rel_of_sorted_cons hsorted r h

/-- C4 amended: a card with no review history for the user is due
immediately; otherwise `get_next_review_date` is the *largest*
`next_review_date` among the user's review rows for that card (the code
orders by `next_review_date` descending and takes the first row, which is
not necessarily the most recently performed review), and the card is due
exactly when `now` has reached that maximum. -/
theorem is_due_max_next_review (now : ℚ) (uid : ℤ)
    (reviews : List FlashcardReviewRow) :
    ((reviews.filter fun r => r.user_id = uid) = [] →
      Flashcard.is_due now uid reviews = true) ∧
    ((reviews.filter fun r => r.user_id = uid) ≠ [] →
      (∃ r ∈ reviews.filter fun r => r.user_id = uid,
        Flashcard.get_next_review_date now uid reviews = r.next_review_date) ∧
      (∀ r ∈ reviews.filter fun r => r.user_id = uid,
        r.next_review_date ≤ Flashcard.get_next_review_date now uid reviews) ∧
      (Flashcard.is_due now uid reviews = true ↔
        Flashcard.get_next_review_date now uid reviews ≤ now)) := by
  constructor
  · intro hnil
    simp [Flashcard.is_due, Flashcard.get_next_review_date, hnil]
  · intro hne
    set l := reviews.filter fun r => r.user_id = uid with hl
    have hperm := List.perm_insertionSort
      (fun a b : FlashcardReviewRow => b.next_review_date ≤ a.next_review_date) l
    have hsne : List.insertionSort
        (fun a b : FlashcardReviewRow => b.next_review_date ≤ a.next_review_date) l ≠ [] := by
      intro h
      exact hne (List.eq_nil_of_length_eq_zero (by
        have := hperm.length_eq
        rw [h] at this
        simpa using this.symm))
    obtain ⟨r0, tl, hsort⟩ : ∃ r0 tl, List.insertionSort
        (fun a b : FlashcardReviewRow => b.next_review_date ≤ a.next_review_date) l
          = r0 :: tl := by
      cases hcase : List.insertionSort
        (fun a b : FlashcardReviewRow => b.next_review_date ≤ a.next_review_date) l with
      | nil => exact absurd hcase hsne
      | cons a as => exact ⟨a, as, rfl⟩
    have hmax := sorted_desc_head_max l r0 tl hsort
    have hval : Flashcard.get_next_review_date now uid reviews = r0.next_review_date := by
      simp only [Flashcard.get_next_review_date, ← hl, hsort]
    refine ⟨⟨r0, hmax.1, hval⟩, ?_, ?_⟩
    · intro r hr
      rw [hval]
      exact hmax.2 r hr
    · simp [Flashcard.is_due, decide_eq_true_eq]

/-- Witness for `is_due_max_next_review` at the counterexample history: with
rows scheduled for days 30 and 2, the next review date is the maximum, 30. -/
theorem is_due_max_next_review_witness :
    (([⟨1, 30⟩, ⟨1, 2⟩] : List FlashcardReviewRow).filter
        (fun r => r.user_id = 1) ≠ []) ∧
    Flashcard.get_next_review_date 5 1 [⟨1, 30⟩, ⟨1, 2⟩] = 30 ∧
    (∀ r ∈ ([⟨1, 30⟩, ⟨1, 2⟩] : List FlashcardReviewRow).filter
        (fun r => r.user_id = 1),
      r.next_review_date ≤ Flashcard.get_next_review_date 5 1 [⟨1, 30⟩, ⟨1, 2⟩]) := by
  have h := (is_due_max_next_review 5 1 [⟨1, 30⟩, ⟨1, 2⟩]).2 (by decide)
  exact ⟨by decide, by decide, h.2.1⟩

/-! ## app.py: Progress rows around quiz submission (`submit_quiz`, `view_lecture`) -/

/-- Embedding of the progress-update tail of `submit_quiz` (`src/app.py`
lines 1206-1220). The argument `progress` is the result of
`Progress.query.filter_by(user_id, lecture_id).first()`: `some` if a row for
the (user, lecture) pair exists, `none` otherwise. The code updates the row
only under `if progress:`; no row is created here. -/
def submit_quiz_update (score : ℚ) (progress : Option Progress) :
    Option Progress :=
  match progress with
  | none => none
  | some p =>
    let p1 := { p with quiz_attempts := p.quiz_attempts + 1 }
    let p2 := { p1 with quiz_avg_score := updateQuizAvg p1.quiz_avg_score score }
    some p2.update_mastery

/-- Embedding of the get-or-create block of `view_lecture` (`src/app.py`
lines 1067-1084): if no Progress row exists for the (user, lecture) pair,
one is created with the column defaults and `viewed=False`; then
`mark_viewed` sets `viewed` (timestamp writes omitted). -/
def view_lecture_progress (progress : Option Progress) : Progress :=
  let p :=
    match progress with
    | none =>
      { viewed := false, quiz_attempts := 0, quiz_avg_score := 0,
        flashcard_reviews := 0, mastery_level := 0 : Progress }
    | some p => p
  { p with viewed := true }

/-- C7 counterexample: a graded submission by a user who has no Progress row
for the lecture (the lecture page was never viewed) leaves no Progress row:
`submit_quiz` guards the whole update with `if progress:` and never creates
one, so the claim "a Progress row for that (user, lecture) pair exists
afterwards — created on the first view or attempt if absent" fails at the
concrete input `progress = none`, `score = 80`. -/
theorem submit_quiz_progress_counterexample :
    ¬ ((submit_quiz_update 80 none).isSome = true) := by
  decide

/-- C7 amended: a graded quiz submission mutates the (user, lecture)
Progress row in place when one exists — incrementing `quiz_attempts`,
blending `quiz_avg_score` and recomputing mastery — but when no row exists
the submission creates none and updates nothing; Progress rows are created
only on lecture view (`view_lecture`), which get-or-creates the row and
marks it viewed. -/
theorem submit_quiz_progress_amended :
    (∀ score : ℚ, submit_quiz_update score none = none) ∧
    (∀ (p : Progress) (score : ℚ),
      submit_quiz_update score (some p) =
        some (Progress.update_mastery
          { p with quiz_attempts := p.quiz_attempts + 1,
                   quiz_avg_score := updateQuizAvg p.quiz_avg_score score })) ∧
    (∀ prior : Option Progress, (view_lecture_progress prior).viewed = true) := by
  refine ⟨fun _ => rfl, fun p score => rfl, fun prior => ?_⟩
  cases prior <;> rfl

/-! ## app.py: build_concept_relationships (C5, C6) and shared course data (C9, C10) -/

/-- Row of the `concept_relationships` table (`ConceptRelationship` in
`src/models/concept.py`), restricted to the columns
`build_concept_relationships` writes. -/
structure ConceptRelationship where
  concept_id : ℤ
  related_concept_id : ℤ
  relationship_type : String
  deriving DecidableEq, Repr

/-- One item of the JSON array returned by the generation service, as read
by `build_concept_relationships` via `rel_data.get(...)`: each field is
`none` when the key is absent. -/
structure RelItem where
  concept_id : Option ℤ
  related_concept_id : Option ℤ
  relationship_type : Option String
  deriving DecidableEq, Repr

/-- Course-scoped slice of the database used by
`build_concept_relationships` and `take_course_quiz`: the ids of the
course's lectures (in `course.lectures.all()` order) and the rows of the
`concepts` table as (concept id, owning lecture id) pairs. -/
structure CourseDB where
  lectures : List ℤ
  concepts : List (ℤ × ℤ)
  deriving DecidableEq, Repr

/-- Concept ids of one lecture:
`Concept.query.filter_by(lecture_id=lecture.id).all()` projected to ids. -/
def lectureConceptIds (db : CourseDB) (lid : ℤ) : List ℤ :=
  (db.concepts.filter fun c => c.2 = lid).map fun c => c.1

/-- All concept ids of the course, collected lecture by lecture as in the
`for lecture in lectures:` loops of `build_concept_relationships`
(`src/app.py` lines 125-129) and `take_course_quiz` (lines 1250-1253). -/
def courseConceptIds (db : CourseDB) : List ℤ :=
  db.lectures.flatMap fun lid => lectureConceptIds db lid

/-- Embedding of `build_concept_relationships` (`src/app.py` lines 103-252).
`course` is `Course.query.get(course_id)` (`none` when the course does not
exist); `genResult` is the parsed JSON array from the generation service
(`none` when the call fails, the response does not parse, or is not a
list); `stored` is the current `concept_relationships` table. Returns the
table after the call together with the list the function returns. The early
returns leave the table untouched; otherwise rows whose `concept_id` lies
in the course's concept-id set are deleted, and each valid item — both
endpoint ids present, nonzero (Python falsiness), and members of the
concept-id set — is inserted with
`relationship_type = rel_data.get('relationship_type', 'related')`. -/
def build_concept_relationships (course : Option CourseDB)
    (genResult : Option (List RelItem))
    (stored : List ConceptRelationship) :
    List ConceptRelationship × List ConceptRelationship :=
  match course with
  | none => (stored, [])
  | some db =>
    if db.lectures.length < 2 then (stored, [])
    else
      let concept_ids := courseConceptIds db
      if concept_ids.length < 2 then (stored, [])
      else
        match genResult with
        | none => (stored, [])
        | some items =>
          let kept := stored.filter fun r => ¬ r.concept_id ∈ concept_ids
          let saved := items.filterMap fun it =>
            match it.concept_id, it.related_concept_id with
            | some cid, some rid =>
              if cid = 0 ∨ rid = 0 then none
              else if cid ∈ concept_ids ∧ rid ∈ concept_ids then
                some { concept_id := cid, related_concept_id := rid,
                       relationship_type := it.relationship_type.getD "related" }
              else none
            | _, _ => none
          (kept ++ saved, saved)

/-- C6: when the course does not exist, has fewer than 2 lectures, or has
fewer than 2 concepts in total across its lectures,
`build_concept_relationships` returns an empty list and leaves the stored
relationship table exactly as it was — no deletes, no inserts. -/
theorem rebuild_preconditions_noop (course : Option CourseDB)
    (genResult : Option (List RelItem)) (stored : List ConceptRelationship)
    (h : course = none ∨
      ∃ db, course = some db ∧
        (db.lectures.length < 2 ∨ (courseConceptIds db).length < 2)) :
    build_concept_relationships course genResult stored = (stored, []) := by
  rcases h with h | ⟨db, hdb, h⟩
  · simp [build_concept_relationships, h]
  · subst hdb
    rcases h with h | h
    · simp [build_concept_relationships, h]
    · by_cases hl : db.lectures.length < 2
      · simp [build_concept_relationships, hl]
      · simp [build_concept_relationships, hl, h]

/-- Witness for `rebuild_preconditions_noop`: a course with a single lecture
holding two concepts triggers the "fewer than 2 lectures" early return and
leaves a pre-existing relationship row untouched. -/
theorem rebuild_preconditions_noop_witness :
    build_concept_relationships (some ⟨[1], [(10, 1), (11, 1)]⟩)
      (some [⟨some 10, some 11, some "prerequisite"⟩])
      [⟨10, 11, "related"⟩] =
    ([⟨10, 11, "related"⟩], []) :=
  rebuild_preconditions_noop (some ⟨[1], [(10, 1), (11, 1)]⟩)
    (some [⟨some 10, some 11, some "prerequisite"⟩])
    [⟨10, 11, "related"⟩]
    (Or.inr ⟨⟨[1], [(10, 1), (11, 1)]⟩, rfl, Or.inl (by decide)⟩)

/-- C5 counterexample: a relationship item whose endpoints are both in the
course's concept-id set but whose `relationship_type` is the unrecognized
string "friendly" is stored with type "friendly", not "related": the code
only substitutes `'related'` when the key is *missing*
(`rel_data.get('relationship_type', 'related')`) and performs no
validation against the four recognized types. -/
theorem relationship_type_counterexample :
    (build_concept_relationships (some ⟨[1, 2], [(10, 1), (20, 2)]⟩)
        (some [⟨some 10, some 20, some "friendly"⟩]) []).2 =
      [⟨10, 20, "friendly"⟩] ∧
    ("friendly" : String) ≠ "related" ∧
    ¬ ("friendly" : String) ∈ ["prerequisite", "related", "builds_on", "part_of"] := by
  refine ⟨by decide, by decide, by decide⟩

/-- C5 amended: for a relationship item whose endpoint ids are both present,
nonzero, and members of the course's concept-id set, the stored
`ConceptRelationship` carries `relationship_type = 'related'` when the
item's type field is *missing*, and carries the item's type string verbatim
when it is present — even when that string is not one of `prerequisite`,
`related`, `builds_on`, `part_of`. -/
theorem relationship_type_amended (db : CourseDB) (items : List RelItem)
    (stored : List ConceptRelationship) (it : RelItem) (cid rid : ℤ)
    (hlec : ¬ db.lectures.length < 2)
    (hcon : ¬ (courseConceptIds db).length < 2)
    (hit : it ∈ items)
    (hcid : it.concept_id = some cid) (hrid : it.related_concept_id = some rid)
    (hcid0 : ¬ cid = 0) (hrid0 : ¬ rid = 0)
    (hcmem : cid ∈ courseConceptIds db) (hrmem : rid ∈ courseConceptIds db) :
    (⟨cid, rid, it.relationship_type.getD "related"⟩ : ConceptRelationship) ∈
      (build_concept_relationships (some db) (some items) stored).2 ∧
    (it.relationship_type = none → it.relationship_type.getD "related" = "related") ∧
    (∀ t, it.relationship_type = some t → it.relationship_type.getD "related" = t) := by
  refine ⟨?_, fun h => by simp [h], fun t h => by simp [h]⟩
  simp only [build_concept_relationships, if_neg hlec, if_neg hcon]
  refine List.mem_filterMap.mpr ⟨it, hit, ?_⟩
  rw [hcid, hrid]
  simp only [if_neg (by tauto : ¬ (cid = 0 ∨ rid = 0)),
    if_pos (And.intro hcmem hrmem)]

/-- Witness for `relationship_type_amended`: in a two-lecture course with
concepts 10 and 20, an item `(10, 20)` with no type field is stored as
`related`. -/
theorem relationship_type_amended_witness :
    (⟨10, 20, (Option.getD (none : Option String) "related")⟩ : ConceptRelationship) ∈
      (build_concept_relationships (some ⟨[1, 2], [(10, 1), (20, 2)]⟩)
        (some [⟨some 10, some 20, none⟩]) []).2 ∧
    Option.getD (none : Option String) "related" = "related" := by
  have h := relationship_type_amended ⟨[1, 2], [(10, 1), (20, 2)]⟩
    [⟨some 10, some 20, none⟩] [] ⟨some 10, some 20, none⟩ 10 20
    (by decide) (by decide) (by decide) rfl rfl (by decide) (by decide)
    (by decide) (by decide)
  exact ⟨h.1, h.2.1 rfl⟩

/-! ## models/course.py: Course.get_weak_concepts / Course.get_strong_concepts -/

/-- Entries collected by the `for lecture in self.lectures: for concept in
lecture.concepts:` double loop of `Course.get_weak_concepts` /
`Course.get_strong_concepts` (`src/models/course.py` lines 55-87), in
traversal order: (concept id, `concept.get_mastery_level(user_id)`). The
`lecture` component of the Python dict is dropped: the sort key reads only
the mastery. -/
abbrev ConceptMastery := ℤ × ℚ

/-- Embedding of `Course.get_weak_concepts`: keep entries with mastery below
the threshold (default 60) and sort by mastery, lowest first. Python
`list.sort` is a stable ascending sort, modelled by `List.insertionSort`
with the non-strict key comparison. -/
def Course.get_weak_concepts (entries : List ConceptMastery)
    (threshold : ℚ := 60) : List ConceptMastery :=
  List.insertionSort (fun a b => a.2 ≤ b.2)
    (entries.filter fun e => e.2 < threshold)

/-- Embedding of `Course.get_strong_concepts`: keep entries with mastery at
or above the threshold (default 80) and sort by mastery, highest first.
Python `list.sort(reverse=True)` is a stable descending sort. -/
def Course.get_strong_concepts (entries : List ConceptMastery)
    (threshold : ℚ := 80) : List ConceptMastery :=
  List.insertionSort (fun a b => b.2 ≤ a.2)
    (entries.filter fun e => threshold ≤ e.2)

/-- C8 counterexample: two concepts with equal mastery 50 under threshold 60
are both returned, in a list that is ascending but not *strictly* ascending
(`50 < 50` fails); so "sorted strictly ascending by mastery" is false on
the code, which keeps ties. -/
theorem weak_strong_sorted_counterexample :
    Course.get_weak_concepts [(1, 50), (2, 50)] 60 = [(1, 50), (2, 50)] ∧
    ¬ List.Pairwise (fun a b : ConceptMastery => a.2 < b.2)
      (Course.get_weak_concepts [(1, 50), (2, 50)] 60) := by
  have h : Course.get_weak_concepts [(1, 50), (2, 50)] 60 = [(1, 50), (2, 50)] := by
    decide
  refine ⟨h, ?_⟩
  rw [h]
  intro hp
  exact absurd (List.rel_of_pairwise_cons hp (List.mem_singleton_self _))
    (lt_irrefl (50 : ℚ))

/-- C8 amended: `get_weak_concepts` returns exactly the course's concepts
with mastery below the threshold, sorted ascending by mastery
(non-strictly: ties are kept, in traversal order), and
`get_strong_concepts` returns exactly those with mastery at or above the
threshold, sorted descending by mastery (again non-strictly). -/
theorem weak_strong_sorted_amended (entries : List ConceptMastery) (tw ts : ℚ) :
    (Course.get_weak_concepts entries tw).Perm
      (entries.filter fun e => e.2 < tw) ∧
    List.Sorted (fun a b : ConceptMastery => a.2 ≤ b.2)
      (Course.get_weak_concepts entries tw) ∧
    (Course.get_strong_concepts entries ts).Perm
      (entries.filter fun e => ts ≤ e.2) ∧
    List.Sorted (fun a b : ConceptMastery => b.2 ≤ a.2)
      (Course.get_strong_concepts entries ts) := by
  have htotW : IsTotal ConceptMastery (fun a b => a.2 ≤ b.2) :=
    ⟨fun a b => le_total a.2 b.2⟩
  have htransW : IsTrans ConceptMastery (fun a b => a.2 ≤ b.2) :=
    ⟨fun a b c => le_trans⟩
  have htotS : IsTotal ConceptMastery (fun a b => b.2 ≤ a.2) :=
    ⟨fun a b => le_total b.2 a.2⟩
  have htransS : IsTrans ConceptMastery (fun a b => b.2 ≤ a.2) :=
    ⟨fun a b c hab hbc => le_trans hbc hab⟩
  exact ⟨List.perm_insertionSort _ _,
    @List.sorted_insertionSort ConceptMastery (fun a b => a.2 ≤ b.2) _ htotW htransW _,
    List.perm_insertionSort _ _,
    @List.sorted_insertionSort ConceptMastery (fun a b => b.2 ≤ a.2) _ htotS htransS _⟩

/-! ## app.py: take_course_quiz question selection (C9, C10) -/

/-- Quiz rows of one lecture:
`[q for q in all_questions if q.concept_id in lecture_concept_ids]` from
`take_course_quiz` (`src/app.py` lines 1284-1285). A quiz row is modelled
as its (quiz id, concept id) pair; `pool` is `all_questions`. -/
def lectureQuestions (db : CourseDB) (pool : List (ℤ × ℤ)) (lid : ℤ) :
    List (ℤ × ℤ) :=
  pool.filter fun q => q.2 ∈ lectureConceptIds db lid

/-- Per-lecture sample cap of `take_course_quiz` (`src/app.py` line 1279):
`max(2, min(3, len(all_questions) // len(lectures)))`, with Python floor
division on nonnegative counts being `Nat` division. -/
def questions_per_lecture (poolSize lectureCount : ℕ) : ℕ :=
  max 2 (min 3 (poolSize / lectureCount))

lemma length_filter_orb {α : Type} (p q : α → Bool) (l : List α)
    (h : ∀ a ∈ l, ¬(p a = true ∧ q a = true)) :
    (l.filter fun a => p a || q a).length =
      (l.filter p).length + (l.filter q).length := by
  induction l with
  | nil => rfl
  | cons a l ih =>
    have ha := h a (List.mem_cons_self a l)
    have ih := ih fun b hb => h b (List.mem_cons_of_mem a hb)
    cases hp : p a with
    | false =>
      cases hq : q a with
      | false => simp [List.filter_cons, hp, hq, ih]
      | true => simp [List.filter_cons, hp, hq, ih, Nat.add_assoc, Nat.add_left_comm]
    | true =>
      cases hq : q a with
      | false =>
        simp [List.filter_cons, hp, hq, ih]
        omega
      | true => exact (ha ⟨hp, hq⟩).elim

lemma lectureConceptIds_unique (db : CourseDB)
    (hc : (db.concepts.map fun c => c.1).Nodup) {c l1 l2 : ℤ}
    (h1 : c ∈ lectureConceptIds db l1) (h2 : c ∈ lectureConceptIds db l2) :
    l1 = l2 := by
  obtain ⟨x, hx, hxc⟩ := List.mem_map.mp h1
  obtain ⟨y, hy, hyc⟩ := List.mem_map.mp h2
  obtain ⟨hxmem, hxl⟩ := List.mem_filter.mp hx
  obtain ⟨hymem, hyl⟩ := List.mem_filter.mp hy
  have hxy : x = y :=
    List.inj_on_of_nodup_map hc hxmem hymem (by rw [hxc, hyc])
  have hxl : x.2 = l1 := by simpa using hxl
  have hyl : y.2 = l2 := by simpa using hyl
  rw [← hxl, ← hyl, hxy]

lemma sum_length_lectureQuestions_le (db : CourseDB) (pool : List (ℤ × ℤ))
    (hc : (db.concepts.map fun c => c.1).Nodup) :
    ∀ lids : List ℤ, lids.Nodup →
      ((lids.map fun lid => (lectureQuestions db pool lid).length).sum ≤
        pool.length) := by
  suffices haux : ∀ lids : List ℤ, lids.Nodup →
      (lids.map fun lid => (lectureQuestions db pool lid).length).sum ≤
        (pool.filter fun q =>
          lids.any fun lid => decide (q.2 ∈ lectureConceptIds db lid)).length by
    intro lids hnd
    exact le_trans (haux lids hnd) (List.length_filter_le _ _)
  intro lids
  induction lids with
  | nil => intro _; simp
  | cons l ls ih =>
    intro hnd
    have hnotin : l ∉ ls := (List.nodup_cons.mp hnd).1
    have ihls := ih (List.nodup_cons.mp hnd).2
    have hdisj : ∀ a ∈ pool,
        ¬((decide (a.2 ∈ lectureConceptIds db l)) = true ∧
          (ls.any fun lid => decide (a.2 ∈ lectureConceptIds db lid)) = true) := by
      intro a _ ⟨h1, h2⟩
      obtain ⟨l2, hl2, hmem2⟩ := List.any_eq_true.mp h2
      have := lectureConceptIds_unique db hc
        (of_decide_eq_true h1) (of_decide_eq_true hmem2)
      exact hnotin (this ▸ hl2)
    have hsplit := length_filter_orb
      (fun a => decide (a.2 ∈ lectureConceptIds db l))
      (fun a => ls.any fun lid => decide (a.2 ∈ lectureConceptIds db lid))
      pool hdisj
    have hcongr : (pool.filter fun q =>
          (l :: ls).any fun lid => decide (q.2 ∈ lectureConceptIds db lid)) =
        (pool.filter fun a =>
          decide (a.2 ∈ lectureConceptIds db l) ||
            ls.any fun lid => decide (a.2 ∈ lectureConceptIds db lid)) := by
      simp only [List.any_cons]
    calc ((l :: ls).map fun lid => (lectureQuestions db pool lid).length).sum
        = (lectureQuestions db pool l).length +
            (ls.map fun lid => (lectureQuestions db pool lid).length).sum := by
          simp
      _ ≤ (lectureQuestions db pool l).length +
            (pool.filter fun q =>
              ls.any fun lid => decide (q.2 ∈ lectureConceptIds db lid)).length :=
          Nat.add_le_add_left ihls _
      _ = (pool.filter fun q =>
            (l :: ls).any fun lid => decide (q.2 ∈ lectureConceptIds db lid)).length := by
          rw [hcongr, hsplit]; rfl

lemma selection_sizes_sum (db : CourseDB) (pool : List (ℤ × ℤ)) :
    ∀ (selections : List (List (ℤ × ℤ))) (lids : List ℤ),
      selections.length = lids.length →
      (∀ pr ∈ selections.zip lids,
        pr.1.length = min (questions_per_lecture pool.length db.lectures.length)
          (lectureQuestions db pool pr.2).length) →
      (selections.map List.length).sum =
        (lids.map fun lid =>
          min (questions_per_lecture pool.length db.lectures.length)
            (lectureQuestions db pool lid).length).sum := by
  intro selections
  induction selections with
  | nil =>
    intro lids hlen _
    have : lids = [] := List.eq_nil_of_length_eq_zero (by simpa using hlen.symm)
    simp [this]
  | cons sel rest ih =>
    intro lids hlen hsize
    cases lids with
    | nil => simp at hlen
    | cons l ls =>
      have hhead := hsize (sel, l) (by rw [List.zip_cons_cons]; exact List.mem_cons_self _ _)
      have htail := ih ls (by simpa using hlen)
        (fun pr hpr => hsize pr (by rw [List.zip_cons_cons]; exact List.mem_cons_of_mem _ hpr))
      simp only [List.map_cons, List.sum_cons, hhead, htail]

/-- C9: in `take_course_quiz`, per lecture the code samples exactly
`min(questions_per_lecture, len(lecture_questions))` questions
(`random.sample` returns its sample size), concatenates, and shuffles.
Whatever the sampling and the shuffle do, the returned list has at most
`lectureCount * max(2, min(3, poolSize / lectureCount))` questions (Python
floor division) and never more than the pool holds. Hypotheses: lecture ids
and concept ids are primary-key distinct, the pool is non-empty, and
`selections`/`final` are the per-lecture samples and the shuffled result. -/
theorem course_quiz_size_bound (db : CourseDB) (pool : List (ℤ × ℤ))
    (selections : List (List (ℤ × ℤ))) (final : List (ℤ × ℤ))
    (hc : (db.concepts.map fun c => c.1).Nodup)
    (hl : db.lectures.Nodup)
    (hpool : pool ≠ [])
    (hlen : selections.length = db.lectures.length)
    (hsize : ∀ pr ∈ selections.zip db.lectures,
      pr.1.length = min (questions_per_lecture pool.length db.lectures.length)
        (lectureQuestions db pool pr.2).length)
    (hfinal : final.Perm selections.flatten) :
    final.length ≤
      db.lectures.length * questions_per_lecture pool.length db.lectures.length ∧
    final.length ≤ pool.length := by
  have hflen : final.length =
      (db.lectures.map fun lid =>
        min (questions_per_lecture pool.length db.lectures.length)
          (lectureQuestions db pool lid).length).sum := by
    rw [hfinal.length_eq, List.length_flatten]
    exact selection_sizes_sum db pool selections db.lectures hlen hsize
  constructor
  · rw [hflen]
    have hbound := List.sum_le_card_nsmul
      (db.lectures.map fun lid =>
        min (questions_per_lecture pool.length db.lectures.length)
          (lectureQuestions db pool lid).length)
      (questions_per_lecture pool.length db.lectures.length)
      (by
        intro x hx
        obtain ⟨lid, _, hlid⟩ := List.mem_map.mp hx
        rw [← hlid]
        exact min_le_left _ _)
    simpa [smul_eq_mul, Nat.mul_comm] using hbound
  · rw [hflen]
    refine le_trans (List.sum_le_sum ?_) (sum_length_lectureQuestions_le db pool hc db.lectures hl)
    intro lid _
    exact min_le_right _ _

/-- Witness for `course_quiz_size_bound`: a course with two lectures, one
concept each, and a pool of three questions (two on concept 10, one on
concept 20). The cap is `max 2 (min 3 (3 / 2)) = 2`; sampling takes 2
questions from lecture 1 and 1 from lecture 2, and the shuffled result has
3 ≤ 2 * 2 and 3 ≤ 3 questions. -/
theorem course_quiz_size_bound_witness :
    ([(101, 10), (100, 10), (200, 20)] : List (ℤ × ℤ)).length ≤
      ([1, 2] : List ℤ).length * questions_per_lecture 3 2 ∧
    ([(101, 10), (100, 10), (200, 20)] : List (ℤ × ℤ)).length ≤
      ([(100, 10), (101, 10), (200, 20)] : List (ℤ × ℤ)).length := by
  have h := course_quiz_size_bound ⟨[1, 2], [(10, 1), (20, 2)]⟩
    [(100, 10), (101, 10), (200, 20)]
    [[(100, 10), (101, 10)], [(200, 20)]]
    [(101, 10), (100, 10), (200, 20)]
    (by decide) (by decide) (by decide) (by decide)
    (by decide) (by decide)
  exact h

lemma mem_flatten_lectureQuestions (db : CourseDB) (pool : List (ℤ × ℤ)) :
    ∀ (selections : List (List (ℤ × ℤ))) (lids : List ℤ),
      selections.length = lids.length →
      (∀ pr ∈ selections.zip lids, ∀ q ∈ pr.1,
        q ∈ lectureQuestions db pool pr.2) →
      ∀ q ∈ selections.flatten, ∃ lid ∈ lids, q ∈ lectureQuestions db pool lid := by
  intro selections
  induction selections with
  | nil => intro lids _ _ q hq; simp at hq
  | cons sel rest ih =>
    intro lids hlen hsub q hq
    cases lids with
    | nil => simp at hlen
    | cons l ls =>
      rw [List.flatten_cons] at hq
      rcases List.mem_append.mp hq with h | h
      · exact ⟨l, List.mem_cons_self l ls,
          hsub (sel, l) (by rw [List.zip_cons_cons]; exact List.mem_cons_self _ _) q h⟩
      · obtain ⟨lid, hlid, hmem⟩ := ih ls (by simpa using hlen)
          (fun pr hpr => hsub pr
            (by rw [List.zip_cons_cons]; exact List.mem_cons_of_mem _ hpr)) q h
        exact ⟨lid, List.mem_cons_of_mem l hlid, hmem⟩

lemma flatten_selections_nodup (db : CourseDB) (pool : List (ℤ × ℤ))
    (hc : (db.concepts.map fun c => c.1).Nodup) :
    ∀ (selections : List (List (ℤ × ℤ))) (lids : List ℤ),
      lids.Nodup →
      selections.length = lids.length →
      (∀ pr ∈ selections.zip lids,
        pr.1.Nodup ∧ ∀ q ∈ pr.1, q ∈ lectureQuestions db pool pr.2) →
      selections.flatten.Nodup := by
  intro selections
  induction selections with
  | nil => intro lids _ _ _; simp
  | cons sel rest ih =>
    intro lids hnd hlen hsel
    cases lids with
    | nil => simp at hlen
    | cons l ls =>
      have hhead := hsel (sel, l)
        (by rw [List.zip_cons_cons]; exact List.mem_cons_self _ _)
      have htail : ∀ pr ∈ rest.zip ls,
          pr.1.Nodup ∧ ∀ q ∈ pr.1, q ∈ lectureQuestions db pool pr.2 :=
        fun pr hpr => hsel pr
          (by rw [List.zip_cons_cons]; exact List.mem_cons_of_mem _ hpr)
      have hrest : rest.flatten.Nodup :=
        ih ls (List.nodup_cons.mp hnd).2 (by simpa using hlen) htail
      have hdisj : sel.Disjoint rest.flatten := by
        intro q hq hq2
        obtain ⟨lid, hlid, hmem⟩ := mem_flatten_lectureQuestions db pool rest ls
          (by simpa using hlen) (fun pr hpr => (htail pr hpr).2) q hq2
        have hq1 := hhead.2 q hq
        have h1 : q.2 ∈ lectureConceptIds db l := by
          have := List.mem_filter.mp hq1
          simpa using this.2
        have h2 : q.2 ∈ lectureConceptIds db lid := by
          have := List.mem_filter.mp hmem
          simpa using this.2
        have : l = lid := lectureConceptIds_unique db hc h1 h2
        exact (List.nodup_cons.mp hnd).1 (this ▸ hlid)
      simpa using List.Nodup.append hhead.1 hrest hdisj

/-- C10: for every outcome of the per-lecture sampling and of the final
shuffle in `take_course_quiz`, the returned list contains no quiz row
twice: each lecture's sample is duplicate-free (sampling without
replacement), and samples of distinct lectures are disjoint because every
quiz row names one concept and, concept ids being primary-key distinct,
every concept belongs to exactly one lecture. -/
theorem course_quiz_nodup (db : CourseDB) (pool : List (ℤ × ℤ))
    (selections : List (List (ℤ × ℤ))) (final : List (ℤ × ℤ))
    (hc : (db.concepts.map fun c => c.1).Nodup)
    (hl : db.lectures.Nodup)
    (hlen : selections.length = db.lectures.length)
    (hsel : ∀ pr ∈ selections.zip db.lectures,
      pr.1.Nodup ∧ ∀ q ∈ pr.1, q ∈ lectureQuestions db pool pr.2)
    (hfinal : final.Perm selections.flatten) :
    final.Nodup :=
  hfinal.symm.nodup
    (flatten_selections_nodup db pool hc selections db.lectures hl hlen hsel)

/-- Witness for `course_quiz_nodup`: the sampled-and-shuffled course quiz of
the two-lecture course from the size-bound witness has no duplicate row. -/
theorem course_quiz_nodup_witness :
    ([(200, 20), (100, 10), (101, 10)] : List (ℤ × ℤ)).Nodup :=
  course_quiz_nodup ⟨[1, 2], [(10, 1), (20, 2)]⟩
    [(100, 10), (101, 10), (200, 20)]
    [[(100, 10), (101, 10)], [(200, 20)]]
    [(200, 20), (100, 10), (101, 10)]
    (by decide) (by decide) (by decide) (by decide) (by decide)
